import Mathlib

/-!
Verification of the decline-curve forecast engine in `src/cases_trial.py`:
the Arps decline-rate model (`arps_rate`), daily forecast profiles with
abandonment cutoff (`make_profile`), trapezoidal EUR integration
(`eur_from_profile`), per-label aggregation of well profiles
(`forecast_outputs` / `_render_plots`), and batch case insertion
(`insert_cases`).

Modelling conventions: calendar dates become integer day numbers, so the
pandas daily `date_range(start, end)` becomes the integer range
`[start, start + 1, ..., end]`; `numpy`/`pandas` float arithmetic is
modelled over `ℝ`; a dataframe becomes a list of rows; the SQLite table
touched by `insert_cases` becomes an explicit list of persisted rows
threaded through the function.
-/

namespace CasesTrial

/-- `arps_rate(t, qi, di, b)` (src/cases_trial.py:20-23):
`qi * exp(-di*t)` when `b == 0`, else `qi / (1 + b*di*t) ** (1/b)`.
The Python `**` on floats is modelled by the real power `Real.rpow`. -/
noncomputable def arps_rate (t qi di b : ℝ) : ℝ :=
  if b = 0 then qi * Real.exp (-di * t) else qi / (1 + b * di * t) ^ (1 / b : ℝ)

/-- `pd.date_range(start=s, end=e, freq="D")` (src/cases_trial.py:34) as the
list of day numbers `[s, s+1, ..., e]`; empty when `e < s`. -/
def dateRange (s e : Int) : List Int :=
  (List.range (e - s + 1).toNat).map (fun (i : Nat) => s + (i : Int))

/-- Lines 34-36 of src/cases_trial.py: each date `d` of the range paired with
its rate at elapsed time `t = (d - s).days = d - s`. -/
noncomputable def profilePairs (s e : Int) (qi di b : ℝ) : List (Int × ℝ) :=
  (dateRange s e).map (fun d => (d, arps_rate ((d - s : Int) : ℝ) qi di b))

/-- Lines 37-39 of src/cases_trial.py: `rates[rates < q_abnd] = np.nan`
followed by `dropna()` removes exactly the samples whose rate is strictly
below the abandonment threshold. -/
noncomputable def dropBelow (c : ℝ) : List (Int × ℝ) → List (Int × ℝ)
  | [] => []
  | p :: rest => if p.2 < c then dropBelow c rest else p :: dropBelow c rest

/-- One row of the profile dataframe built at src/cases_trial.py:39-40:
columns `Date`, `rate`, `cum`. -/
structure ProfileRow where
  date : Int
  rate : ℝ
  cum : ℝ

/-- `df["cum"] = df["rate"].cumsum()` (src/cases_trial.py:40): attach the
running sum of the rates, starting from accumulator `acc`. -/
noncomputable def withCum (acc : ℝ) : List (Int × ℝ) → List ProfileRow
  | [] => []
  | p :: rest => ⟨p.1, p.2, acc + p.2⟩ :: withCum (acc + p.2) rest

/-- `make_profile(start_date, end_date, qi, di, b, q_abnd)`
(src/cases_trial.py:26-41): daily rates over the date range, samples with
`rate < q_abnd` dropped, cumulative column attached. -/
noncomputable def make_profile (s e : Int) (qi di b q_abnd : ℝ) : List ProfileRow :=
  withCum 0 (dropBelow q_abnd (profilePairs s e qi di b))

/-- `np.trapz(y, dx=1)` (src/cases_trial.py:47): trapezoidal rule with unit
spacing; `0` on fewer than two samples. -/
noncomputable def trapz : List ℝ → ℝ
  | x :: y :: rest => (x + y) / 2 + trapz (y :: rest)
  | _ => 0

/-- `eur_from_profile(df)` (src/cases_trial.py:44-47): `0.0` for an empty
profile, otherwise the trapezoidal integral of the `rate` column. -/
noncomputable def eur_from_profile (df : List ProfileRow) : ℝ :=
  match df with
  | [] => 0
  | _ => trapz (df.map ProfileRow.rate)

/-- The `(Date, rate)` columns of a profile, as produced before the `cum`
column is attached. -/
def ratePairs (df : List ProfileRow) : List (Int × ℝ) :=
  df.map (fun r => (r.date, r.rate))

/-! ### Basic unfolding lemmas -/

theorem dropBelow_nil (c : ℝ) : dropBelow c [] = [] := rfl

theorem dropBelow_cons (c : ℝ) (p : Int × ℝ) (rest : List (Int × ℝ)) :
    dropBelow c (p :: rest) =
      if p.2 < c then dropBelow c rest else p :: dropBelow c rest := rfl

theorem withCum_nil (acc : ℝ) : withCum acc [] = [] := rfl

theorem withCum_cons (acc : ℝ) (p : Int × ℝ) (rest : List (Int × ℝ)) :
    withCum acc (p :: rest) = ⟨p.1, p.2, acc + p.2⟩ :: withCum (acc + p.2) rest := rfl

/-- Evaluation of the hyperbolic branch at `di = 0`, `b = 1`: a constant
rate `qi`, used to produce concrete profiles in closed-form checks. -/
theorem arps_rate_const (t qi : ℝ) : arps_rate t qi 0 1 = qi := by
  unfold arps_rate
  rw [if_neg (one_ne_zero : (1 : ℝ) ≠ 0)]
  norm_num [Real.one_rpow]

/-- C1. `arps_rate` follows the Arps model: the exponential branch when
`b = 0`, the hyperbolic branch when `b > 0`; it returns `qi` at `t = 0` and
the constant `qi` for every `t` when `di = 0`, in both branches, and is a
total function (no error). -/
theorem arps_rate_spec (t qi di b : ℝ) (ht : 0 ≤ t) (hqi : 0 ≤ qi)
    (hdi : 0 ≤ di) (hb : 0 ≤ b) :
    (b = 0 → arps_rate t qi di b = qi * Real.exp (-di * t)) ∧
    (0 < b → arps_rate t qi di b = qi / (1 + b * di * t) ^ (1 / b : ℝ)) ∧
    arps_rate 0 qi di b = qi ∧
    (di = 0 → arps_rate t qi di b = qi) := by
  refine ⟨fun h0 => ?_, fun hpos => ?_, ?_, fun hdi0 => ?_⟩
  · rw [arps_rate, if_pos h0]
  · rw [arps_rate, if_neg (ne_of_gt hpos)]
  · by_cases h0 : b = 0
    · rw [arps_rate, if_pos h0]
      simp
    · rw [arps_rate, if_neg h0]
      norm_num [Real.one_rpow]
  · by_cases h0 : b = 0
    · rw [arps_rate, if_pos h0]
      simp [hdi0]
    · rw [arps_rate, if_neg h0]
      norm_num [hdi0, Real.one_rpow]

/-- Closed-form instance of C1: at `qi = 3`, `di = 1`, `b = 0`, `t = 0` the
rate is the initial rate. -/
theorem arps_rate_spec_witness : arps_rate 0 3 1 0 = 3 :=
  (arps_rate_spec 0 3 1 0 le_rfl (by norm_num) (by norm_num) le_rfl).2.2.1

/-- The trapezoidal rule on at least two unit-spaced samples equals the
plain sum minus half the first sample minus half the last sample. -/
theorem trapz_eq_sum_sub_halves (l : List ℝ) (h : 2 ≤ l.length) :
    trapz l = l.sum - l.headI / 2 - (l.getLast?.getD 0) / 2 := by
  match l with
  | [] => simp at h
  | [x] => simp at h
  | [x, y] =>
      show (x + y) / 2 + 0 = (x + (y + 0)) - x / 2 - _ / 2
      norm_num [List.getLast?]
      ring
  | x :: y :: z :: rest =>
      have ih := trapz_eq_sum_sub_halves (y :: z :: rest) (by simp)
      show (x + y) / 2 + trapz (y :: z :: rest) = _
      have hlast : (x :: y :: z :: rest).getLast? = (y :: z :: rest).getLast? :=
        List.getLast?_cons_cons
      rw [ih, hlast,
        show (x :: y :: z :: rest).sum = x + (y + (z :: rest).sum) from rfl,
        show (y :: z :: rest).sum = y + (z :: rest).sum from rfl]
      simp only [List.headI]
      ring

/-- C2. For a profile with at least two retained samples, `eur_from_profile`
is the trapezoidal-rule integral with unit spacing: the sum of the rates
with the first and last rate each weighted by one half — not the plain sum. -/
theorem eur_from_profile_trapezoid (df : List ProfileRow) (h : 2 ≤ df.length) :
    eur_from_profile df =
      (df.map ProfileRow.rate).sum - (df.map ProfileRow.rate).headI / 2 -
        ((df.map ProfileRow.rate).getLast?.getD 0) / 2 := by
  match df with
  | [] => simp at h
  | r :: rest =>
      show trapz ((r :: rest).map ProfileRow.rate) = _
      exact trapz_eq_sum_sub_halves _ (by simpa using h)

/-- Closed-form instance of C2: the 3-sample profile with rates
`[10, 20, 10]` has EUR `30`, not the plain sum `40`. -/
theorem eur_from_profile_trapezoid_witness :
    eur_from_profile [⟨0, 10, 10⟩, ⟨1, 20, 30⟩, ⟨2, 10, 40⟩] = 30 ∧
    eur_from_profile [⟨0, 10, 10⟩, ⟨1, 20, 30⟩, ⟨2, 10, 40⟩] ≠ 40 := by
  have h := eur_from_profile_trapezoid [⟨0, 10, 10⟩, ⟨1, 20, 30⟩, ⟨2, 10, 40⟩]
    (by norm_num)
  rw [h]
  norm_num

/-- C10. A profile with exactly one retained sample has EUR `0` even when
that sample's rate is strictly positive: a single-point trapezoidal
integral is zero, so EUR `0.0` cannot distinguish an empty profile from a
one-day profile. -/
theorem eur_from_profile_single (r : ProfileRow) (hr : 0 < r.rate) :
    eur_from_profile [r] = 0 ∧ eur_from_profile [r] = eur_from_profile [] := by
  constructor
  · show trapz [r.rate] = 0
    rfl
  · show trapz [r.rate] = (0 : ℝ)
    rfl

/-- Closed-form instance of C10: a one-row profile with rate `5 > 0` still
has EUR `0`. -/
theorem eur_from_profile_single_witness :
    eur_from_profile [⟨0, 5, 5⟩] = 0 ∧
    eur_from_profile [⟨0, 5, 5⟩] = eur_from_profile [] :=
  eur_from_profile_single ⟨0, 5, 5⟩ (by norm_num)

/-! ### The abandonment filter (make_profile lines 37-39) -/

/-- The nan-then-dropna sequence of lines 37-39 is the independent per-sample
filter keeping exactly the samples whose rate is not below the threshold. -/
theorem dropBelow_eq_filter (c : ℝ) (l : List (Int × ℝ)) :
    dropBelow c l = l.filter (fun p => !decide (p.2 < c)) := by
  induction l with
  | nil => rfl
  | cons p rest ih =>
      rw [dropBelow_cons, List.filter_cons, ih]
      by_cases hp : p.2 < c
      · simp [hp]
      · simp [hp]

/-- Attaching the cumulative column does not change the `(Date, rate)`
columns. -/
theorem ratePairs_withCum (acc : ℝ) (l : List (Int × ℝ)) :
    ratePairs (withCum acc l) = l := by
  induction l generalizing acc with
  | nil => rfl
  | cons p rest ih =>
      rw [withCum_cons]
      show ((p.1, p.2) : Int × ℝ) :: ratePairs (withCum (acc + p.2) rest) = p :: rest
      rw [ih (acc + p.2)]

/-- The rates of a cumulated profile are the input rates. -/
theorem withCum_map_rate (acc : ℝ) (l : List (Int × ℝ)) :
    (withCum acc l).map ProfileRow.rate = l.map Prod.snd := by
  induction l generalizing acc with
  | nil => rfl
  | cons p rest ih => simp [withCum_cons, ih]

/-- C3. `make_profile` filters every generated sample independently: its
`(Date, rate)` rows are exactly the generated samples whose rate is not
strictly below `q_abnd`; hence no returned row has `rate < q_abnd`, and a
sample whose rate equals `q_abnd` exactly is retained. -/
theorem make_profile_abandonment (s e : Int) (qi di b q_abnd : ℝ) :
    ratePairs (make_profile s e qi di b q_abnd) =
      (profilePairs s e qi di b).filter (fun p => !decide (p.2 < q_abnd)) ∧
    (∀ row ∈ make_profile s e qi di b q_abnd, ¬ row.rate < q_abnd) ∧
    (∀ p ∈ profilePairs s e qi di b, p.2 = q_abnd →
      (p.1, p.2) ∈ ratePairs (make_profile s e qi di b q_abnd)) := by
  have hmain : ratePairs (make_profile s e qi di b q_abnd) =
      (profilePairs s e qi di b).filter (fun p => !decide (p.2 < q_abnd)) := by
    rw [make_profile, ratePairs_withCum, dropBelow_eq_filter]
  refine ⟨hmain, fun row hrow => ?_, fun p hp hpq => ?_⟩
  · have hmem : (row.date, row.rate) ∈ ratePairs (make_profile s e qi di b q_abnd) :=
      List.mem_map.mpr ⟨row, hrow, rfl⟩
    rw [hmain] at hmem
    have := (List.mem_filter.mp hmem).2
    simpa using this
  · rw [hmain]
    refine List.mem_filter.mpr ⟨by simpa using hp, ?_⟩
    simp [hpq]

/-! ### The cumulative column (make_profile line 40) -/

/-- The `cum` field of the `k`-th cumulated row is the accumulator plus the
sum of the first `k+1` input rates. -/
theorem withCum_get_cum (l : List (Int × ℝ)) (acc : ℝ) (k : Nat)
    (hk : k < (withCum acc l).length) :
    ((withCum acc l).get ⟨k, hk⟩).cum = acc + ((l.take (k + 1)).map Prod.snd).sum := by
  induction l generalizing acc k with
  | nil => simp [withCum_nil] at hk
  | cons p rest ih =>
      match k with
      | 0 => simp [withCum_cons]
      | k + 1 =>
          have hk' : k < (withCum (acc + p.2) rest).length := by
            simpa [withCum_cons] using hk
          have := ih (acc + p.2) k hk'
          simp only [withCum_cons, List.get_cons_succ, List.take_succ_cons,
            List.map_cons, List.sum_cons]
          rw [this]
          ring

/-- C5. In every profile returned by `make_profile`, the `cum` value of the
`k`-th retained row is the sum of the `rate` values of the retained rows up
to and including row `k`, in date order: the running sum is computed over
the retained rows only, after the abandonment filter. -/
theorem make_profile_cumulative (s e : Int) (qi di b q_abnd : ℝ) (k : Nat)
    (hk : k < (make_profile s e qi di b q_abnd).length) :
    ((make_profile s e qi di b q_abnd).get ⟨k, hk⟩).cum =
      (((make_profile s e qi di b q_abnd).take (k + 1)).map ProfileRow.rate).sum := by
  have hk' : k < (withCum 0 (dropBelow q_abnd (profilePairs s e qi di b))).length := hk
  have h := withCum_get_cum (dropBelow q_abnd (profilePairs s e qi di b)) 0 k hk'
  calc ((make_profile s e qi di b q_abnd).get ⟨k, hk⟩).cum
      = 0 + (((dropBelow q_abnd (profilePairs s e qi di b)).take (k + 1)).map
          Prod.snd).sum := h
    _ = (((make_profile s e qi di b q_abnd).take (k + 1)).map ProfileRow.rate).sum := by
        rw [zero_add, make_profile, List.map_take, List.map_take, withCum_map_rate]

/-- Evaluation of a small concrete profile: `di = 0`, `b = 1` gives the
constant rate `7` on the three days `0, 1, 2`, none abandoned. -/
theorem make_profile_example :
    make_profile 0 2 7 0 1 0 = [⟨0, 7, 7⟩, ⟨1, 7, 14⟩, ⟨2, 7, 21⟩] := by
  have hdr : dateRange 0 2 = [0, 1, 2] := by decide
  have hp : profilePairs 0 2 7 0 1 = [(0, 7), (1, 7), (2, 7)] := by
    simp [profilePairs, hdr, arps_rate_const]
  rw [make_profile, hp]
  norm_num [dropBelow, withCum]

/-- Closed-form instance of C5: in the concrete profile above, row `1` has
`cum = 7 + 7`, the sum of the first two retained rates. -/
theorem make_profile_cumulative_witness :
    ((make_profile 0 2 7 0 1 0).get
        ⟨1, by rw [make_profile_example]; norm_num⟩).cum =
      (((make_profile 0 2 7 0 1 0).take 2).map ProfileRow.rate).sum :=
  make_profile_cumulative 0 2 7 0 1 0 1 (by rw [make_profile_example]; norm_num)

/-! ### Per-label aggregation (forecast_outputs lines 176-184, _render_plots
lines 279-280) -/

/-- The distinct group keys of `groupby("Date")`, in ascending order, as
pandas produces them (src/cases_trial.py:176-180). -/
def groupDates (rows : List (Int × ℝ)) : List Int :=
  List.insertionSort (· ≤ ·) (rows.map Prod.fst).dedup

/-- The total rate the rows contribute on date `d`: the sum of the `rate`
entries whose `Date` is `d`. -/
noncomputable def rateAt (rows : List (Int × ℝ)) (d : Int) : ℝ :=
  ((rows.filter (fun p => p.1 == d)).map Prod.snd).sum

/-- `pd.concat(...).groupby("Date", as_index=False)["rate"].sum()`
(src/cases_trial.py:176-180): one row per distinct date, in ascending date
order, holding the summed rate of that date. -/
noncomputable def sumByDate (rows : List (Int × ℝ)) : List (Int × ℝ) :=
  (groupDates rows).map (fun d => (d, rateAt rows d))

/-- The per-label summed series with its recomputed cumulative column,
`sum_df["cum"] = sum_df.groupby("case_label")["rate"].cumsum()` restricted
to one label (src/cases_trial.py:279-280). -/
noncomputable def summedSeries (rows : List (Int × ℝ)) : List ProfileRow :=
  withCum 0 (sumByDate rows)

/-- An empty date range: `pd.date_range` yields no samples when the end
date precedes the start date. -/
theorem dateRange_eq_nil (s e : Int) (h : e < s) : dateRange s e = [] := by
  rw [dateRange, Int.toNat_of_nonpos (by omega), List.range_zero, List.map_nil]

/-- C4. With `end_date < start_date`, `make_profile` returns the empty
profile (raising no error), `eur_from_profile` of that empty profile is
exactly `0`, and in the aggregation an empty profile contributes nothing:
concatenating it before grouping leaves the summed series unchanged, and
its zero EUR leaves every total unchanged. -/
theorem make_profile_empty_range (s e : Int) (qi di b q_abnd : ℝ)
    (rows : List (Int × ℝ)) (h : e < s) :
    make_profile s e qi di b q_abnd = [] ∧
    eur_from_profile (make_profile s e qi di b q_abnd) = 0 ∧
    sumByDate (ratePairs (make_profile s e qi di b q_abnd) ++ rows) = sumByDate rows ∧
    (∀ total : ℝ, total + eur_from_profile (make_profile s e qi di b q_abnd) = total) := by
  have hempty : make_profile s e qi di b q_abnd = [] := by
    rw [make_profile, profilePairs, dateRange_eq_nil s e h, List.map_nil,
      dropBelow_nil, withCum_nil]
  refine ⟨hempty, ?_, ?_, ?_⟩
  · rw [hempty]; rfl
  · rw [hempty]
    show sumByDate ([] ++ rows) = sumByDate rows
    rw [List.nil_append]
  · intro total
    rw [hempty]
    show total + 0 = total
    rw [add_zero]

/-- Closed-form instance of C4 at `start = 5 > 3 = end`. -/
theorem make_profile_empty_range_witness :
    make_profile 5 3 1 1 1 1 = [] ∧
    eur_from_profile (make_profile 5 3 1 1 1 1) = 0 ∧
    sumByDate (ratePairs (make_profile 5 3 1 1 1 1) ++ [(0, 2)]) = sumByDate [(0, 2)] ∧
    (∀ total : ℝ, total + eur_from_profile (make_profile 5 3 1 1 1 1) = total) :=
  make_profile_empty_range 5 3 1 1 1 1 [(0, 2)] (by norm_num)

theorem rateAt_nil (d : Int) : rateAt [] d = 0 := rfl

theorem rateAt_cons (p : Int × ℝ) (rest : List (Int × ℝ)) (d : Int) :
    rateAt (p :: rest) d = (if p.1 = d then p.2 else 0) + rateAt rest d := by
  by_cases h : p.1 = d
  · simp [rateAt, List.filter_cons, h]
  · simp [rateAt, List.filter_cons, h]

/-- Grouping a concatenation sums the contributions of the two parts,
date by date. -/
theorem rateAt_append (A B : List (Int × ℝ)) (d : Int) :
    rateAt (A ++ B) d = rateAt A d + rateAt B d := by
  rw [rateAt, rateAt, rateAt, List.filter_append, List.map_append, List.sum_append]

/-- A well with no sample on a date contributes zero to that date. -/
theorem rateAt_eq_zero_of_not_mem (A : List (Int × ℝ)) (d : Int)
    (h : d ∉ A.map Prod.fst) :
    rateAt A d = 0 := by
  have : A.filter (fun p => p.1 == d) = [] := by
    refine List.filter_eq_nil_iff.mpr (fun p hp => ?_)
    simpa using fun hd => h (List.mem_map.mpr ⟨p, hp, hd⟩)
  rw [rateAt, this]
  rfl

/-- A well with exactly one sample `(d, r)` contributes exactly `r` on `d`. -/
theorem rateAt_eq_of_mem (A : List (Int × ℝ)) (d : Int) (r : ℝ)
    (hnd : (A.map Prod.fst).Nodup) (hmem : (d, r) ∈ A) :
    rateAt A d = r := by
  induction A with
  | nil => simp at hmem
  | cons p rest ih =>
      have hnd' : (rest.map Prod.fst).Nodup := (List.nodup_cons.mp (by simpa using hnd)).2
      have hhead : p.1 ∉ rest.map Prod.fst := (List.nodup_cons.mp (by simpa using hnd)).1
      rcases List.mem_cons.mp hmem with hp | hp
      · rw [rateAt_cons, ← hp]
        have hdm : d ∉ rest.map Prod.fst := by rw [← hp] at hhead; exact hhead
        rw [rateAt_eq_zero_of_not_mem rest d hdm]
        simp
      · have hd : d ∈ rest.map Prod.fst := List.mem_map.mpr ⟨(d, r), hp, rfl⟩
        have hne : p.1 ≠ d := fun hcontra => hhead (hcontra ▸ hd)
        rw [rateAt_cons, if_neg hne, zero_add]
        exact ih hnd' hp

theorem sum_map_add_fun (f g : Int → ℝ) (ds : List Int) :
    (ds.map (fun d => f d + g d)).sum = (ds.map f).sum + (ds.map g).sum := by
  induction ds with
  | nil => simp
  | cons x t ih => simp [ih]; ring

/-- Summing `if a = d then v else 0` over a duplicate-free list containing
`a` yields `v`. -/
theorem sum_map_ite_eq (a : Int) (v : ℝ) (ds : List Int) (hnd : ds.Nodup)
    (ha : a ∈ ds) :
    (ds.map (fun d => if a = d then v else 0)).sum = v := by
  induction ds with
  | nil => simp at ha
  | cons x t ih =>
      rcases List.nodup_cons.mp hnd with ⟨hx, ht⟩
      rcases List.mem_cons.mp ha with hax | hat
      · subst hax
        have hzero : (t.map (fun d => if a = d then v else 0)).sum = 0 := by
          refine List.sum_eq_zero (fun y hy => ?_)
          rcases List.mem_map.mp hy with ⟨d, hd, hdy⟩
          have hne : a ≠ d := fun h => hx (h ▸ hd)
          rw [← hdy, if_neg hne]
        rw [List.map_cons, List.sum_cons, hzero, add_zero, if_pos rfl]
      · have hax : a ≠ x := fun h => hx (h ▸ hat)
        rw [List.map_cons, List.sum_cons, if_neg hax, zero_add]
        exact ih ht hat

/-- Summing the per-date group sums over any duplicate-free date list that
covers all rows recovers the total of all rates. -/
theorem sum_rateAt (rows : List (Int × ℝ)) (ds : List Int) (hnd : ds.Nodup)
    (hcov : ∀ p ∈ rows, p.1 ∈ ds) :
    (ds.map (fun d => rateAt rows d)).sum = (rows.map Prod.snd).sum := by
  induction rows with
  | nil => simp [rateAt_nil]
  | cons p rest ih =>
      have h1 : (ds.map (fun d => rateAt (p :: rest) d)).sum =
          (ds.map (fun d => if p.1 = d then p.2 else 0)).sum +
            (ds.map (fun d => rateAt rest d)).sum := by
        rw [← sum_map_add_fun]
        simp only [rateAt_cons]
      rw [h1, sum_map_ite_eq p.1 p.2 ds hnd (hcov p (List.mem_cons_self p rest)),
        ih (fun q hq => hcov q (List.mem_cons_of_mem p hq))]
      simp

theorem groupDates_nodup (rows : List (Int × ℝ)) : (groupDates rows).Nodup :=
  ((List.perm_insertionSort (· ≤ ·) (rows.map Prod.fst).dedup).nodup_iff).mpr
    (List.nodup_dedup _)

theorem groupDates_sorted (rows : List (Int × ℝ)) :
    List.Sorted (· ≤ ·) (groupDates rows) :=
  List.sorted_insertionSort (· ≤ ·) (rows.map Prod.fst).dedup

theorem mem_groupDates (rows : List (Int × ℝ)) (d : Int) :
    d ∈ groupDates rows ↔ d ∈ rows.map Prod.fst := by
  rw [groupDates,
    (List.perm_insertionSort (· ≤ ·) (rows.map Prod.fst).dedup).mem_iff,
    List.mem_dedup]

theorem sumByDate_map_fst (rows : List (Int × ℝ)) :
    (sumByDate rows).map Prod.fst = groupDates rows := by
  rw [sumByDate, List.map_map]
  exact List.map_id _

/-- The last cumulative value is the accumulator plus the total of all
rates. -/
theorem withCum_getLastD (acc : ℝ) (l : List (Int × ℝ)) :
    ((withCum acc l).map ProfileRow.cum).getLastD acc = acc + (l.map Prod.snd).sum := by
  induction l generalizing acc with
  | nil => simp [withCum_nil]
  | cons p rest ih =>
      rw [withCum_cons, List.map_cons, List.getLastD_cons, ih (acc + p.2)]
      simp only [List.map_cons, List.sum_cons]
      ring

/-- C6. For one selected label whose wells have duplicate-free profiles `A`
and `B`, the grouped series `sumByDate (A ++ B)` built at
src/cases_trial.py:176-180 has exactly one row per date of the union of the
two wells' dates, in ascending date order; each date's rate is the sum of
only the wells that have a sample on that date (a well present with rate
`r` contributes exactly `r`, an absent well contributes `0`); and the
recomputed cumulative of the summed series ends at the sum of both wells'
total volumes. -/
theorem summed_series_spec (A B : List (Int × ℝ))
    (hA : (A.map Prod.fst).Nodup) (hB : (B.map Prod.fst).Nodup) :
    ((sumByDate (A ++ B)).map Prod.fst).Nodup ∧
    List.Sorted (· ≤ ·) ((sumByDate (A ++ B)).map Prod.fst) ∧
    (∀ d : Int, d ∈ (sumByDate (A ++ B)).map Prod.fst ↔
      (d ∈ A.map Prod.fst ∨ d ∈ B.map Prod.fst)) ∧
    (∀ d r, (d, r) ∈ sumByDate (A ++ B) → r = rateAt A d + rateAt B d) ∧
    (∀ d r, (d, r) ∈ A → rateAt A d = r) ∧
    (∀ d r, (d, r) ∈ B → rateAt B d = r) ∧
    (∀ d, d ∉ A.map Prod.fst → rateAt A d = 0) ∧
    (∀ d, d ∉ B.map Prod.fst → rateAt B d = 0) ∧
    ((summedSeries (A ++ B)).map ProfileRow.cum).getLastD 0 =
      (A.map Prod.snd).sum + (B.map Prod.snd).sum := by
  refine ⟨?_, ?_, ?_, ?_, ?_, ?_, ?_, ?_, ?_⟩
  · rw [sumByDate_map_fst]; exact groupDates_nodup _
  · rw [sumByDate_map_fst]; exact groupDates_sorted _
  · intro d
    rw [sumByDate_map_fst, mem_groupDates, List.map_append, List.mem_append]
  · intro d r hmem
    rcases List.mem_map.mp hmem with ⟨a, _, ha⟩
    have hd : a = d := congrArg Prod.fst ha
    have hr : rateAt (A ++ B) a = r := congrArg Prod.snd ha
    rw [← hr, hd, rateAt_append]
  · exact fun d r h => rateAt_eq_of_mem A d r hA h
  · exact fun d r h => rateAt_eq_of_mem B d r hB h
  · exact fun d h => rateAt_eq_zero_of_not_mem A d h
  · exact fun d h => rateAt_eq_zero_of_not_mem B d h
  · rw [summedSeries, withCum_getLastD, zero_add, sumByDate]
    have hsum : ((groupDates (A ++ B)).map
        (fun d => ((fun d => (d, rateAt (A ++ B) d)) d).2)).sum =
        (((A ++ B)).map Prod.snd).sum := by
      refine sum_rateAt (A ++ B) (groupDates (A ++ B)) (groupDates_nodup _) ?_
      exact fun p hp => (mem_groupDates _ _).mpr (List.mem_map.mpr ⟨p, hp, rfl⟩)
    rw [List.map_map]
    calc ((groupDates (A ++ B)).map
          (Prod.snd ∘ fun d => (d, rateAt (A ++ B) d))).sum
        = (((A ++ B)).map Prod.snd).sum := hsum
      _ = (A.map Prod.snd).sum + (B.map Prod.snd).sum := by
          rw [List.map_append, List.sum_append]

/-- Closed-form instance of C6 with well `A` holding day `1` and well `B`
holding day `2`. -/
theorem summed_series_spec_witness :
    ((sumByDate ([((1 : Int), (5 : ℝ))] ++ [((2 : Int), (3 : ℝ))])).map Prod.fst).Nodup ∧
    List.Sorted (· ≤ ·)
      ((sumByDate ([((1 : Int), (5 : ℝ))] ++ [((2 : Int), (3 : ℝ))])).map Prod.fst) ∧
    (∀ d : Int, d ∈ (sumByDate ([((1 : Int), (5 : ℝ))] ++ [((2 : Int), (3 : ℝ))])).map Prod.fst ↔
      (d ∈ [((1 : Int), (5 : ℝ))].map Prod.fst ∨ d ∈ [((2 : Int), (3 : ℝ))].map Prod.fst)) ∧
    (∀ d r, (d, r) ∈ sumByDate ([((1 : Int), (5 : ℝ))] ++ [((2 : Int), (3 : ℝ))]) →
      r = rateAt [((1 : Int), (5 : ℝ))] d + rateAt [((2 : Int), (3 : ℝ))] d) ∧
    (∀ d r, (d, r) ∈ [((1 : Int), (5 : ℝ))] → rateAt [((1 : Int), (5 : ℝ))] d = r) ∧
    (∀ d r, (d, r) ∈ [((2 : Int), (3 : ℝ))] → rateAt [((2 : Int), (3 : ℝ))] d = r) ∧
    (∀ d, d ∉ [((1 : Int), (5 : ℝ))].map Prod.fst → rateAt [((1 : Int), (5 : ℝ))] d = 0) ∧
    (∀ d, d ∉ [((2 : Int), (3 : ℝ))].map Prod.fst → rateAt [((2 : Int), (3 : ℝ))] d = 0) ∧
    ((summedSeries ([((1 : Int), (5 : ℝ))] ++ [((2 : Int), (3 : ℝ))])).map ProfileRow.cum).getLastD 0 =
      ([((1 : Int), (5 : ℝ))].map Prod.snd).sum + ([((2 : Int), (3 : ℝ))].map Prod.snd).sum :=
  summed_series_spec [((1 : Int), (5 : ℝ))] [((2 : Int), (3 : ℝ))] (by simp) (by simp)

/-! ### Monotonicity of the decline curve and the truncation refinement -/

/-- For valid parameters the Arps rate is non-increasing in elapsed time. -/
theorem arps_rate_anti (qi di b : ℝ) (hqi : 0 ≤ qi) (hdi : 0 ≤ di) (hb : 0 ≤ b)
    (t₁ t₂ : ℝ) (ht₁ : 0 ≤ t₁) (h : t₁ ≤ t₂) :
    arps_rate t₂ qi di b ≤ arps_rate t₁ qi di b := by
  by_cases h0 : b = 0
  · rw [arps_rate, arps_rate, if_pos h0, if_pos h0]
    refine mul_le_mul_of_nonneg_left (Real.exp_le_exp.mpr ?_) hqi
    nlinarith [mul_nonneg hdi (sub_nonneg.mpr h)]
  · rw [arps_rate, arps_rate, if_neg h0, if_neg h0]
    have hbpos : 0 < b := lt_of_le_of_ne hb (Ne.symm h0)
    have h1 : (0 : ℝ) < 1 + b * di * t₁ := by
      nlinarith [mul_nonneg (mul_nonneg hb hdi) ht₁]
    have h2 : 1 + b * di * t₁ ≤ 1 + b * di * t₂ := by
      nlinarith [mul_nonneg (mul_nonneg hb hdi) (sub_nonneg.mpr h)]
    have hd1 : 0 < (1 + b * di * t₁) ^ (1 / b : ℝ) := Real.rpow_pos_of_pos h1 _
    have hd2 : (1 + b * di * t₁) ^ (1 / b : ℝ) ≤ (1 + b * di * t₂) ^ (1 / b : ℝ) :=
      Real.rpow_le_rpow (le_of_lt h1) h2 (by positivity)
    exact div_le_div_of_nonneg_left hqi hd1 hd2

/-- For `qi > 0`, `di > 0` the Arps rate is strictly decreasing in elapsed
time. -/
theorem arps_rate_strict_anti (qi di b : ℝ) (hqi : 0 < qi) (hdi : 0 < di)
    (hb : 0 ≤ b) (t₁ t₂ : ℝ) (ht₁ : 0 ≤ t₁) (h : t₁ < t₂) :
    arps_rate t₂ qi di b < arps_rate t₁ qi di b := by
  by_cases h0 : b = 0
  · rw [arps_rate, arps_rate, if_pos h0, if_pos h0]
    refine mul_lt_mul_of_pos_left (Real.exp_lt_exp.mpr ?_) hqi
    nlinarith [mul_pos hdi (sub_pos.mpr h)]
  · rw [arps_rate, arps_rate, if_neg h0, if_neg h0]
    have hbpos : 0 < b := lt_of_le_of_ne hb (Ne.symm h0)
    have h1 : (0 : ℝ) < 1 + b * di * t₁ := by
      nlinarith [mul_nonneg (mul_nonneg hb (le_of_lt hdi)) ht₁]
    have h2 : 1 + b * di * t₁ < 1 + b * di * t₂ := by
      nlinarith [mul_pos (mul_pos hbpos hdi) (sub_pos.mpr h)]
    have hd1 : 0 < (1 + b * di * t₁) ^ (1 / b : ℝ) := Real.rpow_pos_of_pos h1 _
    have hd2 : (1 + b * di * t₁) ^ (1 / b : ℝ) < (1 + b * di * t₂) ^ (1 / b : ℝ) :=
      Real.rpow_lt_rpow (le_of_lt h1) h2 (by positivity)
    exact div_lt_div_of_pos_left hqi hd1 hd2

/-- The generated samples carry non-increasing rates, pair by pair. -/
theorem profilePairs_pairwise (s e : Int) (qi di b : ℝ)
    (hqi : 0 ≤ qi) (hdi : 0 ≤ di) (hb : 0 ≤ b) :
    (profilePairs s e qi di b).Pairwise (fun p q => q.2 ≤ p.2) := by
  rw [profilePairs, dateRange, List.map_map]
  refine List.Pairwise.map _ (fun i j hij => ?_) (List.pairwise_lt_range _)
  show arps_rate (((s + (j : Int)) - s : Int) : ℝ) qi di b ≤
    arps_rate (((s + (i : Int)) - s : Int) : ℝ) qi di b
  have hi : (((s + (i : Int)) - s : Int) : ℝ) = (i : ℝ) := by push_cast; ring
  have hj : (((s + (j : Int)) - s : Int) : ℝ) = (j : ℝ) := by push_cast; ring
  rw [hi, hj]
  exact arps_rate_anti qi di b hqi hdi hb _ _ (Nat.cast_nonneg i)
    (Nat.cast_le.mpr (le_of_lt hij))

/-- On a list whose rates are pairwise non-increasing, the independent
per-sample filter keeps exactly an initial run: it agrees with
`takeWhile`. -/
theorem filter_eq_takeWhile_of_anti (c : ℝ) (l : List (Int × ℝ))
    (h : l.Pairwise (fun p q => q.2 ≤ p.2)) :
    l.filter (fun p => !decide (p.2 < c)) = l.takeWhile (fun p => !decide (p.2 < c)) := by
  induction l with
  | nil => rfl
  | cons p rest ih =>
      rcases List.pairwise_cons.mp h with ⟨hp, hrest⟩
      by_cases hc : p.2 < c
      · have hhead : (!decide (p.2 < c)) = false := by simp [hc]
        rw [List.filter_cons, hhead, if_neg (by simp), List.takeWhile_cons, hhead,
          if_neg (by simp)]
        refine List.filter_eq_nil_iff.mpr (fun q hq => ?_)
        have : q.2 < c := lt_of_le_of_lt (hp q hq) hc
        simp [this]
      · have hhead : (!decide (p.2 < c)) = true := by simp [hc]
        rw [List.filter_cons, hhead, if_pos rfl, List.takeWhile_cons, hhead,
          if_pos rfl, ih hrest]

/-- `takeWhile` returns an initial segment: some `take k` of its input. -/
theorem takeWhile_eq_take_k (p : (Int × ℝ) → Bool) (l : List (Int × ℝ)) :
    ∃ k, l.takeWhile p = l.take k := by
  induction l with
  | nil => exact ⟨0, rfl⟩
  | cons x rest ih =>
      by_cases hx : p x = true
      · rcases ih with ⟨k, hk⟩
        exact ⟨k + 1, by rw [List.takeWhile_cons, if_pos hx, List.take_succ_cons, hk]⟩
      · exact ⟨0, by rw [List.takeWhile_cons, if_neg hx, List.take_zero]⟩

/-- The dates of a cumulated profile are the dates of its input pairs. -/
theorem withCum_map_date (acc : ℝ) (l : List (Int × ℝ)) :
    (withCum acc l).map ProfileRow.date = l.map Prod.fst := by
  induction l generalizing acc with
  | nil => rfl
  | cons p rest ih => simp [withCum_cons, ih]

theorem profilePairs_map_fst (s e : Int) (qi di b : ℝ) :
    (profilePairs s e qi di b).map Prod.fst = dateRange s e := by
  rw [profilePairs, List.map_map]
  exact List.map_id _

/-- Modelled from the spec: the "stop at first breach" truncation rule the
spec calls observationally equivalent to `make_profile`'s independent
per-sample filter — generate the samples, keep the longest initial run
whose rate has not yet fallen below `q_abnd`, then attach the cumulative
column. -/
noncomputable def make_profile_stop (s e : Int) (qi di b q_abnd : ℝ) : List ProfileRow :=
  withCum 0 ((profilePairs s e qi di b).takeWhile (fun p => !decide (p.2 < q_abnd)))

/-- C8. For valid parameters (`qi, di, b ≥ 0`) the Arps rate is
non-increasing in elapsed time, strictly decreasing when `qi > 0` and
`di > 0`; consequently `make_profile`'s per-sample abandonment filter is
observationally equivalent to stopping at the first breach, and the
retained dates always form an initial segment of the generated date
range. -/
theorem arps_monotone_stop_equiv (qi di b : ℝ)
    (hqi : 0 ≤ qi) (hdi : 0 ≤ di) (hb : 0 ≤ b) :
    (∀ t₁ t₂ : ℝ, 0 ≤ t₁ → t₁ ≤ t₂ →
      arps_rate t₂ qi di b ≤ arps_rate t₁ qi di b) ∧
    (0 < qi → 0 < di → ∀ t₁ t₂ : ℝ, 0 ≤ t₁ → t₁ < t₂ →
      arps_rate t₂ qi di b < arps_rate t₁ qi di b) ∧
    (∀ (s e : Int) (q_abnd : ℝ),
      make_profile s e qi di b q_abnd = make_profile_stop s e qi di b q_abnd) ∧
    (∀ (s e : Int) (q_abnd : ℝ), ∃ k,
      (make_profile s e qi di b q_abnd).map ProfileRow.date = (dateRange s e).take k) := by
  have hstop : ∀ (s e : Int) (q_abnd : ℝ),
      make_profile s e qi di b q_abnd = make_profile_stop s e qi di b q_abnd := by
    intro s e q_abnd
    rw [make_profile, make_profile_stop, dropBelow_eq_filter,
      filter_eq_takeWhile_of_anti q_abnd _ (profilePairs_pairwise s e qi di b hqi hdi hb)]
  refine ⟨fun t₁ t₂ ht₁ h => arps_rate_anti qi di b hqi hdi hb t₁ t₂ ht₁ h,
    fun hqi' hdi' t₁ t₂ ht₁ h => arps_rate_strict_anti qi di b hqi' hdi' hb t₁ t₂ ht₁ h,
    hstop, fun s e q_abnd => ?_⟩
  rcases takeWhile_eq_take_k (fun p => !decide (p.2 < q_abnd)) (profilePairs s e qi di b)
    with ⟨k, hk⟩
  refine ⟨k, ?_⟩
  rw [hstop s e q_abnd, make_profile_stop, withCum_map_date, hk, List.map_take,
    profilePairs_map_fst]

/-- Closed-form instance of C8 at the spec's example parameters
`qi = 1000`, `di = 0.001`, `b = 1`: the rate one day in is no larger than
the initial rate. -/
theorem arps_monotone_stop_equiv_witness :
    arps_rate 1 1000 (1 / 1000) 1 ≤ arps_rate 0 1000 (1 / 1000) 1 :=
  (arps_monotone_stop_equiv 1000 (1 / 1000) 1 (by norm_num) (by norm_num)
    (by norm_num)).1 0 1 le_rfl (by norm_num)

/-! ### Batch case insertion (insert_cases, src/cases_trial.py:60-91) -/

/-- One editable row of the add-cases table (src/cases_trial.py:104-111):
every field may be missing. -/
structure CaseRow where
  well_name : Option String
  case_label : Option String
  eff_date : Option Int
  qi : Option ℚ
  di : Option ℚ
  b : Option ℚ

/-- One persisted row of the `forecast_cases` table: the INSERT at
src/cases_trial.py:61-82 stores the trimmed name and label, `str(eff_date)`
and the numeric parameters. -/
structure DbCase where
  well_name : String
  case_label : String
  eff_date : String
  qi : ℚ
  di : ℚ
  b : ℚ

/-- Python's `str.strip()`: drop whitespace from both ends of the string. -/
def pyStrip (s : String) : String :=
  ⟨((s.data.dropWhile Char.isWhitespace).reverse.dropWhile Char.isWhitespace).reverse⟩

/-- `cases_df.dropna(subset=[...])` (src/cases_trial.py:68): a row survives
when all six required fields are present. -/
def requiredPresent (r : CaseRow) : Bool :=
  r.well_name.isSome && r.case_label.isSome && r.eff_date.isSome &&
    r.qi.isSome && r.di.isSome && r.b.isSome

/-- The guard of the loop body (src/cases_trial.py:70-73): the row is kept
when both the trimmed name and the trimmed label are non-empty. -/
def keepRow (r : CaseRow) : Bool :=
  !(pyStrip (r.well_name.getD "") == "") && !(pyStrip (r.case_label.getD "") == "")

/-- The row as the INSERT statement persists it (src/cases_trial.py:75-82). -/
def persistRow (r : CaseRow) : DbCase :=
  { well_name := pyStrip (r.well_name.getD "")
    case_label := pyStrip (r.case_label.getD "")
    eff_date := toString (r.eff_date.getD 0)
    qi := r.qi.getD 0
    di := r.di.getD 0
    b := r.b.getD 0 }

/-- The `for _, row in cases_df.iterrows()` loop (src/cases_trial.py:69-83):
trim name and label, skip the row when either is empty, otherwise insert it
and increment the count. -/
def insertLoop (db : List DbCase) (count : Nat) : List CaseRow → List DbCase × Nat
  | [] => (db, count)
  | r :: rest =>
    if pyStrip (r.well_name.getD "") = "" ∨ pyStrip (r.case_label.getD "") = "" then
      insertLoop db count rest
    else
      insertLoop (db ++ [persistRow r]) (count + 1) rest

/-- `insert_cases(conn, cases_df)` (src/cases_trial.py:60-91): drop rows
missing required fields, run the insertion loop over the survivors, return
the new table contents and the count. The SQLite connection becomes the
explicit `db` list; the final commit has no observable effect here. -/
def insert_cases (db : List DbCase) (cases_df : List CaseRow) : List DbCase × Nat :=
  insertLoop db 0 (cases_df.filter requiredPresent)

/-- A batch row that reaches the database: required fields present, name
and label non-empty after trimming. -/
def validRow (r : CaseRow) : Bool :=
  requiredPresent r && keepRow r

theorem insertLoop_spec (rows : List CaseRow) (db : List DbCase) (count : Nat) :
    insertLoop db count rows =
      (db ++ (rows.filter keepRow).map persistRow,
        count + (rows.filter keepRow).length) := by
  induction rows generalizing db count with
  | nil => simp [insertLoop]
  | cons r rest ih =>
      by_cases hcond : pyStrip (r.well_name.getD "") = "" ∨ pyStrip (r.case_label.getD "") = ""
      · have hkeep : keepRow r = false := by
          rcases hcond with h | h <;> simp [keepRow, h]
        rw [insertLoop, if_pos hcond, ih, List.filter_cons_of_neg (by simp [hkeep])]
      · have hkeep : keepRow r = true := by
          push_neg at hcond
          simp [keepRow, hcond.1, hcond.2]
        rw [insertLoop, if_neg hcond, ih, List.filter_cons_of_pos hkeep]
        simp only [List.map_cons, List.length_cons, List.append_assoc,
          List.singleton_append, Prod.mk.injEq]
        exact ⟨trivial, by omega⟩

/-- The two filter stages compose into the single validity predicate. -/
theorem filter_required_keep (batch : List CaseRow) :
    (batch.filter requiredPresent).filter keepRow = batch.filter validRow := by
  induction batch with
  | nil => rfl
  | cons r rest ih =>
      rw [List.filter_cons]
      by_cases hreq : requiredPresent r = true
      · rw [if_pos (by rw [hreq]), List.filter_cons]
        by_cases hkeep : keepRow r = true
        · rw [if_pos (by rw [hkeep]), ih, List.filter_cons,
            if_pos (by simp [validRow, hreq, hkeep])]
        · have hkeep' : keepRow r = false := by simpa using hkeep
          rw [if_neg (by rw [hkeep']; exact Bool.false_ne_true), ih, List.filter_cons,
            if_neg (by simp [validRow, hkeep'])]
      · have hreq' : requiredPresent r = false := by simpa using hreq
        rw [if_neg (by rw [hreq']; exact Bool.false_ne_true), ih, List.filter_cons,
          if_neg (by simp [validRow, hreq'])]

/-- The spec's example batch: four rows, complete except that the second
has an empty `well_name`. -/
def exampleBatch : List CaseRow :=
  [⟨some "W1", some "base", some 0, some 100, some (1 / 100), some 0⟩,
   ⟨some "", some "base", some 0, some 90, some (1 / 100), some 0⟩,
   ⟨some "W3", some "base", some 0, some 80, some (1 / 100), some 0⟩,
   ⟨some "W4", some "base", some 0, some 70, some (1 / 100), some 0⟩]

/-- C7. `insert_cases` skips exactly the rows missing a required field or
whose trimmed name or label is empty, without aborting the batch: the rows
persisted are the valid rows in order, the returned count equals the number
of rows actually inserted, and on the spec's 4-row example batch with one
empty `well_name` exactly 3 rows are persisted and 3 is returned. -/
theorem insert_cases_spec (db : List DbCase) (batch : List CaseRow) :
    (insert_cases db batch).1 = db ++ (batch.filter validRow).map persistRow ∧
    (insert_cases db batch).2 = (batch.filter validRow).length ∧
    (insert_cases db batch).1.length = db.length + (insert_cases db batch).2 ∧
    (insert_cases [] exampleBatch).2 = 3 ∧
    (insert_cases [] exampleBatch).1.length = 3 := by
  have h := insertLoop_spec (batch.filter requiredPresent) db 0
  rw [insert_cases, h, filter_required_keep]
  refine ⟨rfl, by rw [Nat.zero_add], ?_, by decide, by decide⟩
  rw [List.length_append, List.length_map, Nat.zero_add]

/-- C9. The forecast engine is deterministic and stateless: two invocations
of `make_profile`, `eur_from_profile`, the per-label aggregation or
`insert_cases` on identical inputs yield identical outputs. All state the
original reads or writes (the case table) is an explicit argument of the
model, so no hidden mutable state can distinguish two calls. -/
theorem engine_deterministic (s₁ s₂ e₁ e₂ : Int) (qi₁ qi₂ di₁ di₂ b₁ b₂ q₁ q₂ : ℝ)
    (rows₁ rows₂ : List (Int × ℝ)) (db₁ db₂ : List DbCase)
    (batch₁ batch₂ : List CaseRow)
    (hs : s₁ = s₂) (he : e₁ = e₂) (hqi : qi₁ = qi₂) (hdi : di₁ = di₂)
    (hb : b₁ = b₂) (hq : q₁ = q₂) (hrows : rows₁ = rows₂) (hdb : db₁ = db₂)
    (hbatch : batch₁ = batch₂) :
    make_profile s₁ e₁ qi₁ di₁ b₁ q₁ = make_profile s₂ e₂ qi₂ di₂ b₂ q₂ ∧
    eur_from_profile (make_profile s₁ e₁ qi₁ di₁ b₁ q₁) =
      eur_from_profile (make_profile s₂ e₂ qi₂ di₂ b₂ q₂) ∧
    summedSeries rows₁ = summedSeries rows₂ ∧
    insert_cases db₁ batch₁ = insert_cases db₂ batch₂ := by
  subst hs
  subst he
  subst hqi
  subst hdi
  subst hb
  subst hq
  subst hrows
  subst hdb
  subst hbatch
  exact ⟨rfl, rfl, rfl, rfl⟩

/-- Closed-form instance of C9 at concrete inputs. -/
theorem engine_deterministic_witness :
    make_profile 0 1 1 1 1 0 = make_profile 0 1 1 1 1 0 ∧
    eur_from_profile (make_profile 0 1 1 1 1 0) =
      eur_from_profile (make_profile 0 1 1 1 1 0) ∧
    summedSeries [(0, 1)] = summedSeries [(0, 1)] ∧
    insert_cases [] exampleBatch = insert_cases [] exampleBatch :=
  engine_deterministic 0 0 1 1 1 1 1 1 1 1 0 0 [(0, 1)] [(0, 1)] [] []
    exampleBatch exampleBatch rfl rfl rfl rfl rfl rfl rfl rfl rfl

end CasesTrial
